import Mathlib

/-!
# The stack virtual machine of `src/assets/virtualMachine.js`

A shallow embedding of the interpreter `virtualMachine` and of the part of the
JavaScript value semantics it relies on (array reads outside the written
indices, `+`, `-`, strict equality against string tags).

Numbers are IEEE 754 binary64 values, with the rounding of `+` and `-`, the
infinities, the two zeros and `NaN`.
-/

set_option maxRecDepth 8192

namespace Chui

/-! ## JavaScript numbers

A Number is an IEEE 754 binary64 value. Sums and differences are computed
exactly and rounded to the nearest value of the format, ties to even, as the
language prescribes. -/

/-- Number of binary digits of `n`, computed with `fuel` halvings. -/
def bitLengthAux : Nat → Nat → Nat
  | 0, _ => 0
  | fuel + 1, n => if n = 0 then 0 else bitLengthAux fuel (n / 2) + 1

/-- Number of binary digits of `n` (0 for 0). -/
def bitLength (n : Nat) : Nat := bitLengthAux n n

/-- A JavaScript Number, that is an IEEE 754 binary64 value. `finite s m e` is
`(-1)^s * m * 2^e`, kept in the form of the format: `m < 2^53`, and either
`2^52 ≤ m` with `-1074 ≤ e ≤ 971`, or `m < 2^52` with `e = -1074`
(subnormal); zero is `m = 0`, `e = 0`, with its sign. -/
inductive Number where
  | finite (negative : Bool) (m : Nat) (e : Int)
  | infinite (negative : Bool)
  | nan
  deriving DecidableEq, Repr

/-- The binary64 value nearest to `(-1)^s * p / q`, ties to the even
significand; values of magnitude `2^1024` or more after rounding are
infinite. -/
def roundRatio (negative : Bool) (p q : Nat) : Number :=
  if p = 0 ∨ q = 0 then .finite negative 0 0
  else
    let k : Int := (bitLength p : Int) - (bitLength q : Int)
    let atLeast : Bool :=
      if 0 ≤ k then decide (q * 2 ^ k.toNat ≤ p) else decide (q ≤ p * 2 ^ (-k).toNat)
    let floorLog : Int := if atLeast then k else k - 1
    let t : Int := max (floorLog - 52) (-1074)
    let num : Nat := if 0 ≤ t then p else p * 2 ^ (-t).toNat
    let den : Nat := if 0 ≤ t then q * 2 ^ t.toNat else q
    let quo : Nat := num / den
    let rem : Nat := num % den
    let m : Nat := if den < 2 * rem ∨ (2 * rem = den ∧ quo % 2 = 1) then quo + 1 else quo
    let m2 : Nat := if 2 ^ 53 ≤ m then m / 2 else m
    let e2 : Int := if 2 ^ 53 ≤ m then t + 1 else t
    if m2 = 0 then .finite negative 0 0
    else if 971 < e2 then .infinite negative
    else .finite negative m2 e2

/-- The Number denoted by a natural-number literal. -/
def Number.ofNat (n : Nat) : Number := roundRatio false n 1

/-- Unary minus. -/
def Number.neg : Number → Number
  | .finite s m e => .finite (!s) m e
  | .infinite s => .infinite (!s)
  | .nan => .nan

/-- Number::add. -/
def Number.add : Number → Number → Number
  | .nan, _ => .nan
  | _, .nan => .nan
  | .infinite s1, .infinite s2 => if s1 = s2 then .infinite s1 else .nan
  | .infinite s1, .finite _ _ _ => .infinite s1
  | .finite _ _ _, .infinite s2 => .infinite s2
  | .finite s1 m1 e1, .finite s2 m2 e2 =>
    let e : Int := min e1 e2
    let a : Nat := m1 * 2 ^ (e1 - e).toNat
    let b : Nat := m2 * 2 ^ (e2 - e).toNat
    let den : Nat := 2 ^ (-e).toNat
    let mul : Nat := 2 ^ e.toNat
    if s1 = s2 then roundRatio s1 ((a + b) * mul) den
    else if a = b then .finite false 0 0
    else if b < a then roundRatio s1 ((a - b) * mul) den
    else roundRatio s2 ((b - a) * mul) den

/-- Number::subtract: `x - y` is `x + (-y)`. -/
def Number.sub (x y : Number) : Number := x.add y.neg

instance (n : Nat) : OfNat Number n := ⟨Number.ofNat n⟩
instance : Neg Number := ⟨Number.neg⟩
instance : Add Number := ⟨Number.add⟩
instance : Sub Number := ⟨Number.sub⟩

/-! ### Number to string -/

/-- The least `j ≥ start` with `q ≤ p * 10^j`, searched for `fuel` steps. -/
def scaleUp : Nat → Nat → Nat → Nat → Nat
  | 0, _, _, j => j
  | fuel + 1, p, q, j => if q ≤ p * 10 ^ j then j else scaleUp fuel p q (j + 1)

/-- The integer `n` with `10^(n-1) ≤ p / q < 10^n`, for a positive ratio. -/
def decimalExponent (p q : Nat) : Int :=
  if q ≤ p then ((Nat.toDigits 10 (p / q)).length : Int)
  else 1 - (scaleUp 400 p q 1 : Int)

/-- The decimal `s * 10^(n-k)` with `k` digits nearest to `p / q`, when it
converts back to `v`; the result is `(s, n)`, with `n` one more when the
digits carry over to a power of ten. -/
def digitsWith (v : Number) (p q : Nat) (n : Int) (k : Nat) : Option (Nat × Int) :=
  let a : Nat := if n ≤ k then p * 10 ^ ((k : Int) - n).toNat else p
  let b : Nat := if n ≤ k then q else q * 10 ^ (n - (k : Int)).toNat
  let lo : Nat := a / b
  let rem : Nat := a % b
  let hi : Nat := lo + 1
  let back : Nat → Number := fun c =>
    if n ≤ k then roundRatio false c (10 ^ ((k : Int) - n).toNat)
    else roundRatio false (c * 10 ^ (n - (k : Int)).toNat) 1
  let okLo : Bool := decide (back lo = v)
  let okHi : Bool := decide (back hi = v)
  let upper : Bool := decide (b < 2 * rem) || (decide (2 * rem = b) && decide (lo % 2 = 1))
  let carry : Nat × Int := if hi = 10 ^ k then (10 ^ (k - 1), n + 1) else (hi, n)
  if okLo && okHi then some (if upper then carry else (lo, n))
  else if okLo then some (lo, n)
  else if okHi then some carry
  else none

/-- The shortest digits: the least `k` from `k` on (at most `fuel` tries) for
which `digitsWith` succeeds, with its `(s, n)`. -/
def shortestDigits (v : Number) (p q : Nat) (n : Int) : Nat → Nat → Nat × Nat × Int
  | 0, k => (k, p / q, n)
  | fuel + 1, k =>
    match digitsWith v p q n k with
    | some (s, n2) => (k, s, n2)
    | none => shortestDigits v p q n fuel (k + 1)

/-- The characters of Number::toString for the digits `s` (`k` of them) and the
decimal exponent `n`. -/
def formatDigits (s k : Nat) (n : Int) : List Char :=
  let ds : List Char := Nat.toDigits 10 s
  if (k : Int) ≤ n ∧ n ≤ 21 then ds ++ List.replicate (n - (k : Int)).toNat '0'
  else if 0 < n ∧ n ≤ 21 then ds.take n.toNat ++ '.' :: ds.drop n.toNat
  else if -6 < n ∧ n ≤ 0 then '0' :: '.' :: (List.replicate (-n).toNat '0' ++ ds)
  else
    let ex : List Char :=
      'e' :: (if 0 ≤ n - 1 then '+' else '-') :: Nat.toDigits 10 (n - 1).natAbs
    if k = 1 then ds ++ ex else ds.take 1 ++ '.' :: (ds.drop 1 ++ ex)

/-- Number::toString (radix 10). -/
def Number.toStr : Number → String
  | .nan => "NaN"
  | .infinite false => "Infinity"
  | .infinite true => "-Infinity"
  | .finite s m e =>
    if m = 0 then "0"
    else
      let p : Nat := m * 2 ^ e.toNat
      let q : Nat := 2 ^ (-e).toNat
      let n : Int := decimalExponent p q
      let r := shortestDigits (.finite false m e) p q n 17 1
      String.mk ((if s then ['-'] else []) ++ formatDigits r.2.1 r.1 r.2.2)

/-! ### String to number -/

/-- The characters StringToNumber strips: WhiteSpace and LineTerminator. -/
def isBlank (c : Char) : Bool :=
  let n := c.toNat
  n = 0x09 || n = 0x0A || n = 0x0B || n = 0x0C || n = 0x0D || n = 0x20 || n = 0xA0
    || n = 0x1680 || (0x2000 ≤ n && n ≤ 0x200A) || n = 0x2028 || n = 0x2029 || n = 0x202F
    || n = 0x205F || n = 0x3000 || n = 0xFEFF

/-- Strips the blank characters at both ends. -/
def trimChars (cs : List Char) : List Char :=
  ((cs.dropWhile isBlank).reverse.dropWhile isBlank).reverse

/-- Value of a run of decimal digits. -/
def digitsToNat (ds : List Char) : Nat :=
  ds.foldl (fun acc c => acc * 10 + (c.toNat - 48)) 0

/-- Value of a digit in the given radix (2, 8 or 16), if it is one. -/
def radixDigit (radix : Nat) (c : Char) : Option Nat :=
  let n := c.toNat
  let v : Nat :=
    if 48 ≤ n ∧ n ≤ 57 then n - 48
    else if 97 ≤ n ∧ n ≤ 102 then n - 87
    else if 65 ≤ n ∧ n ≤ 70 then n - 55
    else radix
  if v < radix then some v else none

/-- Value of a non-empty run of digits in the given radix. -/
def radixValue (radix : Nat) (cs : List Char) : Option Nat :=
  if cs = [] then none
  else
    cs.foldl
      (fun acc c =>
        match acc, radixDigit radix c with
        | some n, some d => some (n * radix + d)
        | _, _ => none)
      (some 0)

/-- The Number for the decimal `digits * 10^exponent`. -/
def decimalNumber (negative : Bool) (digits : Nat) (exponent : Int) : Number :=
  if digits = 0 then .finite negative 0 0
  else
    let lead : Int := ((Nat.toDigits 10 digits).length : Int) + exponent
    if 310 < lead then .infinite negative
    else if lead < -330 then .finite negative 0 0
    else if 0 ≤ exponent then roundRatio negative (digits * 10 ^ exponent.toNat) 1
    else roundRatio negative digits (10 ^ (-exponent).toNat)

/-- StrUnsignedDecimalLiteral: `Infinity`, or digits with an optional fraction
and an optional exponent part; anything else is `NaN`. -/
def unsignedDecimal (negative : Bool) (cs : List Char) : Number :=
  if cs = "Infinity".toList then .infinite negative
  else
    let whole : List Char := cs.takeWhile Char.isDigit
    let rest1 : List Char := cs.dropWhile Char.isDigit
    let afterDot : List Char := match rest1 with
      | '.' :: r => r
      | _ => rest1
    let fraction : List Char := match rest1 with
      | '.' :: r => r.takeWhile Char.isDigit
      | _ => []
    let rest2 : List Char := match rest1 with
      | '.' :: _ => afterDot.dropWhile Char.isDigit
      | _ => rest1
    if whole = [] ∧ fraction = [] then .nan
    else
      let digits : Nat := digitsToNat (whole ++ fraction)
      match rest2 with
      | [] => decimalNumber negative digits (-(fraction.length : Int))
      | c :: r =>
        if c = 'e' ∨ c = 'E' then
          let expNegative : Bool := match r with
            | '-' :: _ => true
            | _ => false
          let expDigits : List Char := match r with
            | '-' :: r2 => r2
            | '+' :: r2 => r2
            | _ => r
          if expDigits ≠ [] ∧ expDigits.all Char.isDigit = true then
            let ex : Int := digitsToNat expDigits
            decimalNumber negative digits
              ((if expNegative then -ex else ex) - (fraction.length : Int))
          else .nan
        else .nan

/-- JavaScript StringToNumber. -/
def stringToNumber (s : String) : Number :=
  match trimChars s.toList with
  | [] => .finite false 0 0
  | '0' :: 'x' :: r => match radixValue 16 r with
    | some n => roundRatio false n 1
    | none => .nan
  | '0' :: 'X' :: r => match radixValue 16 r with
    | some n => roundRatio false n 1
    | none => .nan
  | '0' :: 'o' :: r => match radixValue 8 r with
    | some n => roundRatio false n 1
    | none => .nan
  | '0' :: 'O' :: r => match radixValue 8 r with
    | some n => roundRatio false n 1
    | none => .nan
  | '0' :: 'b' :: r => match radixValue 2 r with
    | some n => roundRatio false n 1
    | none => .nan
  | '0' :: 'B' :: r => match radixValue 2 r with
    | some n => roundRatio false n 1
    | none => .nan
  | '-' :: r => unsignedDecimal true r
  | '+' :: r => unsignedDecimal false r
  | cs => unsignedDecimal false cs

/-! ## JavaScript values -/

/-- A JavaScript value that can occur in a program array or on the stack:
a Number (`NaN` and the infinities included), a string, or `undefined`. -/
inductive Value where
  | num (x : Number)
  | str (s : String)
  | undefined
  deriving DecidableEq, Repr

/-- The value `NaN`. -/
def Value.nan : Value := .num .nan

/-- JavaScript `ToNumber`. -/
def toNumber : Value → Number
  | .num x => x
  | .str s => stringToNumber s
  | .undefined => .nan

/-- JavaScript `ToString`. -/
def toStr : Value → String
  | .num x => x.toStr
  | .str s => s
  | .undefined => "undefined"

/-- JavaScript `l + r`: string concatenation as soon as one side is a string,
Number addition of the `ToNumber` images otherwise. -/
def jsAdd (l r : Value) : Value :=
  match l, r with
  | .str a, _ => .str (a ++ toStr r)
  | _, .str b => .str (toStr l ++ b)
  | _, _ => .num (toNumber l + toNumber r)

/-- JavaScript `l - r`: Number subtraction of the `ToNumber` images. -/
def jsSub (l r : Value) : Value :=
  .num (toNumber l - toNumber r)

/-- Reading `program[i]`: an index past the end reads `undefined`. -/
def index (program : List Value) (i : Nat) : Value :=
  program.getD i .undefined

/-- Writing `stack[i] = v`. The `stack` array is keyed by integers: a write at a
negative index creates a property of that name, which later reads return. -/
def store (stack : Int → Value) (i : Int) (v : Value) : Int → Value :=
  fun j => if j = i then v else stack j

/-! ## The interpreter -/

/-- The variables of one call of `virtualMachine`, with the variables `left` and
`right`, which the code assigns without declaring them and which therefore
outlive the call. -/
structure State where
  program : List Value
  programCounter : Nat
  stack : Int → Value
  stackPointer : Int
  left : Value
  right : Value

/-- Body of `case 'PUSH'`. -/
def casePUSH (s : State) : State :=
  let s := { s with stack := store s.stack s.stackPointer (index s.program (s.programCounter + 1)) }
  let s := { s with stackPointer := s.stackPointer + 1 }
  { s with programCounter := s.programCounter + 1 }

/-- Body of `case 'ADD'`. -/
def caseADD (s : State) : State :=
  let s := { s with right := s.stack (s.stackPointer - 1) }
  let s := { s with stackPointer := s.stackPointer - 1 }
  let s := { s with left := s.stack (s.stackPointer - 1) }
  let s := { s with stackPointer := s.stackPointer - 1 }
  let s := { s with stack := store s.stack s.stackPointer (jsAdd s.left s.right) }
  { s with stackPointer := s.stackPointer + 1 }

/-- Body of `case 'MINUS'`. -/
def caseMINUS (s : State) : State :=
  let s := { s with right := s.stack (s.stackPointer - 1) }
  let s := { s with stackPointer := s.stackPointer - 1 }
  let s := { s with left := s.stack (s.stackPointer - 1) }
  let s := { s with stackPointer := s.stackPointer - 1 }
  let s := { s with stack := store s.stack s.stackPointer (jsSub s.left s.right) }
  { s with stackPointer := s.stackPointer + 1 }

/-- One iteration of the `while` loop: the `switch` on the current instruction
(which has no `default` case), then `programCounter++`. -/
def step (s : State) : State :=
  let currentInstruction := index s.program s.programCounter
  let s :=
    if currentInstruction = .str "PUSH" then casePUSH s
    else if currentInstruction = .str "ADD" then caseADD s
    else if currentInstruction = .str "MINUS" then caseMINUS s
    else s
  { s with programCounter := s.programCounter + 1 }

/-- The `while (programCounter < program.length)` loop, run for at most `fuel`
iterations. -/
def loop : Nat → State → State
  | 0, s => s
  | fuel + 1, s =>
    if s.programCounter < s.program.length then loop fuel (step s) else s

/-- The state at the start of a call: `programCounter = 0`, `stack = []`,
`stackPointer = 0`; `left` and `right` hold whatever earlier calls left. -/
def initial (left right : Value) (program : List Value) : State :=
  { program := program, programCounter := 0, stack := fun _ => .undefined,
    stackPointer := 0, left := left, right := right }

/-- The state when the loop is left. Each iteration advances the program
counter, so `program.length` iterations are enough (`loop_exits`). -/
def finalState (left right : Value) (program : List Value) : State :=
  loop program.length (initial left right program)

/-- The error kinds of the specification. -/
inductive ExecutionError where
  | UnknownOpcode
  | MissingOperand
  | StackUnderflow
  | EmptyResult
  deriving DecidableEq, Repr

/-- What a call can be observed to do: report a value as the stack top, or fail
with an error. -/
inductive Outcome where
  | reported (v : Value)
  | failed (e : ExecutionError)
  deriving DecidableEq, Repr

/-- The function `virtualMachine`: runs the loop and reports
`stack[stackPointer - 1]`. The code contains no `throw`. -/
def virtualMachine (left right : Value) (program : List Value) : Outcome :=
  let s := finalState left right program
  .reported (s.stack (s.stackPointer - 1))

/-- The program at the end of the source file. -/
def program : List Value :=
  [.str "PUSH", .num 3, .str "PUSH", .num 4, .str "ADD", .str "PUSH", .num 5, .str "MINUS"]

/-! ## Instruction streams seen as token lists

The loop walks the program array from left to right, so its effect on the
stack can be read off the list of remaining tokens. `run` does this; it is
related to `loop` by `loop_core`. -/

/-- The stack and the stack pointer. -/
structure Core where
  stack : Int → Value
  stackPointer : Int

/-- The stack and stack pointer of a state. -/
def State.core (s : State) : Core := ⟨s.stack, s.stackPointer⟩

/-- The empty stack of a fresh call. -/
def Core.empty : Core := ⟨fun _ => .undefined, 0⟩

/-- The entry `stack[stackPointer - 1]`. -/
def Core.top (c : Core) : Value := c.stack (c.stackPointer - 1)

/-- Effect of `case 'PUSH'` with operand `v`. -/
def Core.push (v : Value) (c : Core) : Core :=
  ⟨store c.stack c.stackPointer v, c.stackPointer + 1⟩

/-- Effect of a binary operator case computing `f left right`. -/
def Core.binary (f : Value → Value → Value) (c : Core) : Core :=
  ⟨store c.stack (c.stackPointer - 1 - 1)
      (f (c.stack (c.stackPointer - 1 - 1)) (c.stack (c.stackPointer - 1))),
    c.stackPointer - 1 - 1 + 1⟩

/-- Effect of a token other than `'PUSH'` in opcode position. -/
def Core.plain (t : Value) (c : Core) : Core :=
  if t = .str "ADD" then c.binary jsAdd
  else if t = .str "MINUS" then c.binary jsSub
  else c

/-- Effect of executing the tokens of a list, the first one in opcode position. -/
def run : List Value → Core → Core
  | [], c => c
  | [t], c => if t = .str "PUSH" then c.push .undefined else c.plain t
  | t :: x :: rest, c =>
    if t = .str "PUSH" then run rest (c.push x) else run (x :: rest) (c.plain t)

/-- A token list is aligned when executing it stops exactly at its end: its
last `'PUSH'` in opcode position, if any, has its operand inside the list. -/
def aligned : List Value → Bool
  | [] => true
  | [t] => t ≠ .str "PUSH"
  | t :: x :: rest =>
    if t = .str "PUSH" then aligned rest else aligned (x :: rest)

/-- The stream `[PUSH, n1, ..., PUSH, nk]`. -/
def pushes : List Number → List Value
  | [] => []
  | n :: ns => .str "PUSH" :: .num n :: pushes ns

/-- Well-formed streams, for a stack that holds `depth` values: every `'PUSH'`
is followed by a numeric literal, every token in opcode position is `'PUSH'`,
`'ADD'` or `'MINUS'`, and a binary operator finds at least two values. -/
def wellFormedFrom : Nat → List Value → Bool
  | _, [] => true
  | depth, [t] => decide ((t = .str "ADD" ∨ t = .str "MINUS") ∧ 2 ≤ depth)
  | depth, t :: x :: rest =>
    if t = .str "PUSH" then
      match x with
      | .num _ => wellFormedFrom (depth + 1) rest
      | _ => false
    else if t = .str "ADD" ∨ t = .str "MINUS" then
      decide (2 ≤ depth) && wellFormedFrom (depth - 1) (x :: rest)
    else false

/-- Well-formed streams, started on the empty stack. -/
def wellFormed (p : List Value) : Bool := wellFormedFrom 0 p

/-- No iteration of the call dispatches `'ADD'` or `'MINUS'` while
`stackPointer` is below 2. `loop k` of the initial state is the state after
`k` iterations; the loop makes at most `program.length` of them. -/
def neverUnderflows (left right : Value) (program : List Value) : Prop :=
  ∀ k : Nat, k < program.length →
    (loop k (initial left right program)).programCounter < program.length →
    (index program (loop k (initial left right program)).programCounter = .str "ADD"
      ∨ index program (loop k (initial left right program)).programCounter = .str "MINUS") →
    2 ≤ (loop k (initial left right program)).stackPointer

instance (left right : Value) (program : List Value) :
    Decidable (neverUnderflows left right program) := by
  unfold neverUnderflows
  infer_instance

/-! ## The logical stack and a reference machine -/

/-- The array entries `stack[0], ..., stack[n-1]`. -/
def slots (stack : Int → Value) (n : Nat) : List Value :=
  (List.range n).map (fun (i : Nat) => stack (Int.ofNat i))

/-- The logical stack `stack[0 .. stackPointer-1]`, bottom first. -/
def Core.entries (c : Core) : List Value := slots c.stack c.stackPointer.toNat

/-- The logical stack is the list `xs` (bottom first, top last):
`stackPointer` is its depth and `stack[0 .. stackPointer-1]` are its entries. -/
def Core.holds (c : Core) (xs : List Value) : Prop :=
  c.stackPointer = (xs.length : Int) ∧ c.entries = xs

instance (c : Core) (xs : List Value) : Decidable (c.holds xs) := by
  unfold Core.holds
  infer_instance

/-- Reference machine, one token other than `'PUSH'` on an ideal LIFO stack
(a list, top first): a binary operator pops right, then left, and pushes the
result; it is stuck (`none`) when fewer than two values are present. Any
other token leaves the stack as it is. -/
def idealPlain (t : Value) (xs : List Value) : Option (List Value) :=
  if t = .str "ADD" then
    match xs with
    | r :: l :: rest => some (jsAdd l r :: rest)
    | _ => none
  else if t = .str "MINUS" then
    match xs with
    | r :: l :: rest => some (jsSub l r :: rest)
    | _ => none
  else some xs

/-- Reference machine: executes a token list on an ideal LIFO stack (a list,
top first). It is stuck (`none`) when a binary operator finds fewer than two
values or a `'PUSH'` has no operand. -/
def ideal : List Value → List Value → Option (List Value)
  | [], xs => some xs
  | [t], xs => if t = .str "PUSH" then none else idealPlain t xs
  | t :: x :: rest, xs =>
    if t = .str "PUSH" then ideal rest (x :: xs)
    else
      match idealPlain t xs with
      | some ys => ideal (x :: rest) ys
      | none => none

/-- Streams on which, starting with `depth` values, no binary operator runs
with fewer than two values and every `'PUSH'` has an operand. -/
def disciplinedFrom : Nat → List Value → Bool
  | _, [] => true
  | depth, [t] =>
    if t = .str "PUSH" then false
    else if t = .str "ADD" ∨ t = .str "MINUS" then decide (2 ≤ depth)
    else true
  | depth, t :: x :: rest =>
    if t = .str "PUSH" then disciplinedFrom (depth + 1) rest
    else if t = .str "ADD" ∨ t = .str "MINUS" then
      decide (2 ≤ depth) && disciplinedFrom (depth - 1) (x :: rest)
    else disciplinedFrom depth (x :: rest)

/-! ## Arithmetic expressions and their postfix streams -/

/-- Expression trees built from numeric literals with binary `+` and `-`. -/
inductive Expr where
  | lit (n : Number)
  | add (e1 e2 : Expr)
  | sub (e1 e2 : Expr)
  deriving DecidableEq, Repr

/-- The value of an expression, in the arithmetic of Numbers. -/
def Expr.value : Expr → Number
  | .lit n => n
  | .add e1 e2 => e1.value + e2.value
  | .sub e1 e2 => e1.value - e2.value

/-- The post-order stream of an expression. -/
def compile : Expr → List Value
  | .lit n => [.str "PUSH", .num n]
  | .add e1 e2 => compile e1 ++ compile e2 ++ [.str "ADD"]
  | .sub e1 e2 => compile e1 ++ compile e2 ++ [.str "MINUS"]

/-! ## The loop and the token-list view -/

theorem Number.nan_add (x : Number) : Number.nan + x = Number.nan := by
  cases x <;> rfl

/-- Known values of the language, as checks of the arithmetic and of the
conversions: rounding at 2^53, a fraction, the sign of zero, `Infinity - Infinity`, the exponent form from 1e21 on, and the strings
`'1e3'`, `'0x10'` and a no-break space. -/
theorem number_checks :
    (9007199254740992 : Number) + 1 = 9007199254740992
    ∧ (9007199254740992 : Number) + 3 = 9007199254740996
    ∧ (-9007199254740992 : Number) - 1 = -9007199254740992
    ∧ (stringToNumber "1.5").toStr = "1.5"
    ∧ (2 : Number) - 2 = .finite false 0 0
    ∧ (-(0 : Number)) - 0 = .finite true 0 0
    ∧ Number.infinite false - Number.infinite false = .nan
    ∧ jsAdd (.num (stringToNumber "1e21")) (.str "x") = .str "1e+21x"
    ∧ jsSub (.str "1e3") (.num 1) = .num 999
    ∧ jsSub (.str "0x10") (.num 0) = .num 16
    ∧ jsSub (.str (String.mk [Char.ofNat 160, Char.ofNat 49, Char.ofNat 50])) (.num 0) = .num 12
    ∧ jsAdd (.num 3) (.str "ADD") = .str "3ADD"
    ∧ jsAdd .undefined (.num 1) = .nan
    ∧ jsAdd .undefined (.str "a") = .str "undefineda" := by
  decide

theorem step_program (s : State) : (step s).program = s.program := by
  unfold step casePUSH caseADD caseMINUS
  dsimp only
  split_ifs <;> rfl

theorem step_programCounter (s : State) :
    (step s).programCounter =
      if index s.program s.programCounter = .str "PUSH" then s.programCounter + 2
      else s.programCounter + 1 := by
  unfold step casePUSH caseADD caseMINUS
  dsimp only
  split_ifs <;> rfl

theorem step_core (s : State) :
    (step s).core =
      if index s.program s.programCounter = .str "PUSH" then
        s.core.push (index s.program (s.programCounter + 1))
      else s.core.plain (index s.program s.programCounter) := by
  unfold step casePUSH caseADD caseMINUS Core.plain Core.push Core.binary State.core
  dsimp only
  split_ifs <;> rfl

theorem loop_program (fuel : Nat) (s : State) : (loop fuel s).program = s.program := by
  induction fuel generalizing s with
  | zero => rfl
  | succ fuel ih =>
    unfold loop
    split_ifs
    · rw [ih, step_program]
    · rfl

theorem run_cons (t : Value) (l : List Value) (c : Core) :
    run (t :: l) c =
      if t = .str "PUSH" then run l.tail (c.push (l.headD .undefined))
      else run l (c.plain t) := by
  cases l with
  | nil => simp [run]
  | cons x rest => simp [run]

theorem loop_core (fuel : Nat) (s : State)
    (h : s.program.length - s.programCounter ≤ fuel) :
    (loop fuel s).core = run (s.program.drop s.programCounter) s.core := by
  induction fuel generalizing s with
  | zero =>
    have h0 : s.program.length ≤ s.programCounter := by omega
    simp [loop, List.drop_eq_nil_of_le h0, run]
  | succ fuel ih =>
    unfold loop
    by_cases hlt : s.programCounter < s.program.length
    · rw [if_pos hlt]
      have hpc := step_programCounter s
      have hfuel : (step s).program.length - (step s).programCounter ≤ fuel := by
        rw [step_program, hpc]; split_ifs <;> omega
      rw [ih (step s) hfuel, step_program, step_core, hpc]
      have hdrop : s.program.drop s.programCounter =
          index s.program s.programCounter :: s.program.drop (s.programCounter + 1) := by
        rw [List.drop_eq_getElem_cons hlt]
        simp [index, List.getD_eq_getElem?_getD, List.getElem?_eq_getElem hlt]
      rw [hdrop, run_cons]
      have hhead : (s.program.drop (s.programCounter + 1)).headD .undefined =
          index s.program (s.programCounter + 1) := by
        simp [index, List.getD_eq_getElem?_getD, List.headD_eq_head?_getD]
      have htail : (s.program.drop (s.programCounter + 1)).tail =
          s.program.drop (s.programCounter + 2) := by
        simp [List.tail_drop]
      split_ifs
      · rw [hhead, htail]
      · rfl
    · rw [if_neg hlt]
      have h0 : s.program.length ≤ s.programCounter := by omega
      simp [List.drop_eq_nil_of_le h0, run]

theorem loop_exits (fuel : Nat) (s : State)
    (h : s.program.length - s.programCounter ≤ fuel) :
    s.program.length ≤ (loop fuel s).programCounter := by
  induction fuel generalizing s with
  | zero => simp only [loop]; omega
  | succ fuel ih =>
    unfold loop
    by_cases hlt : s.programCounter < s.program.length
    · rw [if_pos hlt]
      have hpc := step_programCounter s
      have hfuel : (step s).program.length - (step s).programCounter ≤ fuel := by
        rw [step_program, hpc]; split_ifs <;> omega
      have := ih (step s) hfuel
      rwa [step_program] at this
    · rw [if_neg hlt]; omega

theorem virtualMachine_eq_run (l r : Value) (p : List Value) :
    virtualMachine l r p = .reported (run p Core.empty).top := by
  have h := loop_core p.length (initial l r p) (by simp [initial])
  simp only [initial, List.drop_zero] at h
  unfold virtualMachine finalState
  have h2 : ∀ s : State, s.stack (s.stackPointer - 1) = s.core.top := fun _ => rfl
  simp only [h2, initial]
  rw [h]
  rfl

theorem run_append (p q : List Value) (c : Core) (h : aligned p = true) :
    run (p ++ q) c = run q (run p c) := by
  induction p using aligned.induct generalizing c with
  | case1 => simp [run]
  | case2 t =>
    have ht : t ≠ .str "PUSH" := by simpa [aligned] using h
    simp [run, run_cons, ht]
  | case3 x rest ih =>
    have h2 : aligned rest = true := by simpa [aligned] using h
    simp only [List.cons_append, run, if_true]
    exact ih _ h2
  | case4 t x rest ht ih =>
    have h2 : aligned (x :: rest) = true := by simpa [aligned, ht] using h
    have := ih (c.plain t) h2
    rw [List.cons_append, run_cons, if_neg ht, this]
    simp [run, ht]

theorem aligned_pushes (ns : List Number) : aligned (pushes ns) = true := by
  induction ns with
  | nil => rfl
  | cons n ns ih => simpa [pushes, aligned] using ih

theorem pushes_append (ms ns : List Number) : pushes (ms ++ ns) = pushes ms ++ pushes ns := by
  induction ms with
  | nil => rfl
  | cons n ms ih => simp [pushes, ih]

theorem aligned_of_wellFormedFrom (d : Nat) (p : List Value) (h : wellFormedFrom d p = true) :
    aligned p = true := by
  induction p using aligned.induct generalizing d with
  | case1 => rfl
  | case2 t =>
    simp only [wellFormedFrom, decide_eq_true_eq] at h
    rcases h.1 with h1 | h1 <;> simp [aligned, h1]
  | case3 x rest ih =>
    simp only [wellFormedFrom, if_true] at h
    simp only [aligned, if_true]
    cases x with
    | num n => exact ih (d + 1) h
    | str _ => simp at h
    | undefined => simp at h
  | case4 t x rest ht ih =>
    simp only [wellFormedFrom, if_neg ht] at h
    simp only [aligned, if_neg ht]
    split_ifs at h
    simp only [Bool.and_eq_true] at h
    exact ih (d - 1) h.2

theorem top_push (v : Value) (c : Core) : (c.push v).top = v := by
  simp [Core.push, Core.top, store]

theorem top_binary_push_push (f : Value → Value → Value) (a b : Value) (c : Core) :
    (((c.push a).push b).binary f).top = f a b := by
  simp [Core.push, Core.top, Core.binary, store]

theorem run_push_push_plain (a b t : Value) (c : Core) (ht : t ≠ .str "PUSH") :
    run [.str "PUSH", a, .str "PUSH", b, t] c = ((c.push a).push b).plain t := by
  simp [run, ht]

theorem exists_last_two (ns : List Number) (h : 2 ≤ ns.length) :
    ∃ ms a b, ns = ms ++ [a, b] ∧ ns[ns.length - 2] = a ∧ ns[ns.length - 1] = b := by
  induction ns with
  | nil => simp at h
  | cons n ns ih =>
    by_cases h2 : 2 ≤ ns.length
    · obtain ⟨ms, a, b, h3, h4, h5⟩ := ih h2
      refine ⟨n :: ms, a, b, by rw [h3]; rfl, ?_, ?_⟩
      · rw [← h4]
        simp only [List.length_cons]
        have : ns.length + 1 - 2 = (ns.length - 2) + 1 := by omega
        simp [this]
      · rw [← h5]
        simp only [List.length_cons]
        have : ns.length + 1 - 1 = (ns.length - 1) + 1 := by omega
        simp [this]
    · rcases ns with _ | ⟨b, _ | ⟨c, rest⟩⟩
      · simp at h
      · exact ⟨[], n, b, rfl, rfl, rfl⟩
      · simp at h2

theorem run_pushes_two_plain (ms : List Number) (a b : Number) (t : Value) (ht : t ≠ .str "PUSH") :
    (run (pushes (ms ++ [a, b]) ++ [t]) Core.empty).top =
      ((((run (pushes ms) Core.empty).push (.num a)).push (.num b)).plain t).top := by
  rw [pushes_append, List.append_assoc, run_append _ _ _ (aligned_pushes ms)]
  simp only [pushes, List.cons_append, List.nil_append]
  rw [run_push_push_plain _ _ _ _ ht]

/-- C1: a stream of k >= 2 pushes of numeric literals followed by one operator
reports n(k-1) + nk for ADD and n(k-1) - nk for MINUS, in the arithmetic of
Numbers (binary64, rounded); `[PUSH,3,PUSH,4,ADD]` reports 7,
`[PUSH,3,PUSH,4,MINUS]` reports -1, and `[PUSH,2^53,PUSH,1,ADD]` reports the
rounded sum 2^53. -/
theorem pushes_then_operator (l r : Value) (ns : List Number) (h : 2 ≤ ns.length) :
    virtualMachine l r (pushes ns ++ [.str "ADD"]) =
        .reported (.num (ns[ns.length - 2] + ns[ns.length - 1]))
    ∧ virtualMachine l r (pushes ns ++ [.str "MINUS"]) =
        .reported (.num (ns[ns.length - 2] - ns[ns.length - 1]))
    ∧ virtualMachine l r [.str "PUSH", .num 3, .str "PUSH", .num 4, .str "ADD"] =
        .reported (.num 7)
    ∧ virtualMachine l r [.str "PUSH", .num 3, .str "PUSH", .num 4, .str "MINUS"] =
        .reported (.num (-1))
    ∧ virtualMachine l r
        [.str "PUSH", .num 9007199254740992, .str "PUSH", .num 1, .str "ADD"] =
        .reported (.num 9007199254740992) := by
  obtain ⟨ms, a, b, hns, ha, hb⟩ := exists_last_two ns h
  rw [ha, hb]
  refine ⟨?_, ?_, ?_, ?_, ?_⟩
  rotate_left 2
  · rw [virtualMachine_eq_run]; decide
  · rw [virtualMachine_eq_run]; decide
  · rw [virtualMachine_eq_run]; decide
  · rw [virtualMachine_eq_run, hns, run_pushes_two_plain ms a b _ (by decide)]
    simp only [Core.plain, if_true]
    rw [top_binary_push_push]
    rfl
  · rw [virtualMachine_eq_run, hns, run_pushes_two_plain ms a b _ (by decide)]
    have hne : (Value.str "MINUS" = Value.str "ADD") = False := by decide
    simp only [Core.plain, hne, if_false, if_true]
    rw [top_binary_push_push]
    rfl

theorem pushes_then_operator_witness :
    2 ≤ [(1 : Number), 2, 5].length
    ∧ virtualMachine .undefined .undefined (pushes [1, 2, 5] ++ [.str "ADD"]) =
        .reported (.num (2 + 5))
    ∧ virtualMachine .undefined .undefined (pushes [1, 2, 5] ++ [.str "MINUS"]) =
        .reported (.num (2 - 5)) :=
  ⟨by decide, (pushes_then_operator .undefined .undefined [1, 2, 5] (by decide)).1,
   (pushes_then_operator .undefined .undefined [1, 2, 5] (by decide)).2.1⟩

/-- C2: `[PUSH,a,PUSH,b,ADD,PUSH,c,MINUS]` reports `(a + b) - c`, in the
arithmetic of Numbers (each operation rounded); the program of the source
file, `[PUSH,3,PUSH,4,ADD,PUSH,5,MINUS]`, reports 2; and with `a = 2^53`,
`b = 1`, `c = 2^53` the report is 0, the sum having been rounded. -/
theorem add_then_minus (l r : Value) (a b c : Number) :
    virtualMachine l r
        [.str "PUSH", .num a, .str "PUSH", .num b, .str "ADD", .str "PUSH", .num c,
          .str "MINUS"] = .reported (.num ((a + b) - c))
    ∧ virtualMachine l r program = .reported (.num 2)
    ∧ virtualMachine l r
        [.str "PUSH", .num 9007199254740992, .str "PUSH", .num 1, .str "ADD", .str "PUSH",
          .num 9007199254740992, .str "MINUS"] = .reported (.num 0) := by
  refine ⟨?_, ?_, ?_⟩
  · rw [virtualMachine_eq_run]
    simp [run, Core.push, Core.plain, Core.binary, Core.top, Core.empty, store, jsAdd, jsSub,
      toNumber]
  · rw [virtualMachine_eq_run]
    decide
  · rw [virtualMachine_eq_run]
    decide

/-- C3: after any well-formed prefix `p`, the stream `p ++ [PUSH,a,PUSH,b,MINUS]`
reports `a - b`, the earlier-pushed value minus the later-pushed one, in the
arithmetic of Numbers, and so never `b - a` when that differs; after any such
prefix `PUSH 3, PUSH 4, MINUS` reports -1 and not 1, and
`PUSH -2^53, PUSH 1, MINUS` reports the rounded difference -2^53. -/
theorem minus_pop_order (l r : Value) (p : List Value) (a b : Number)
    (h : wellFormed p = true) :
    virtualMachine l r (p ++ [.str "PUSH", .num a, .str "PUSH", .num b, .str "MINUS"]) =
        .reported (.num (a - b))
    ∧ (a - b ≠ b - a →
        virtualMachine l r (p ++ [.str "PUSH", .num a, .str "PUSH", .num b, .str "MINUS"]) ≠
          .reported (.num (b - a)))
    ∧ virtualMachine l r (p ++ [.str "PUSH", .num 3, .str "PUSH", .num 4, .str "MINUS"]) =
        .reported (.num (-1))
    ∧ virtualMachine l r (p ++ [.str "PUSH", .num 3, .str "PUSH", .num 4, .str "MINUS"]) ≠
        .reported (.num 1)
    ∧ virtualMachine l r
        (p ++ [.str "PUSH", .num (-9007199254740992), .str "PUSH", .num 1, .str "MINUS"]) =
        .reported (.num (-9007199254740992)) := by
  have key : ∀ x y : Number, virtualMachine l r
      (p ++ [.str "PUSH", .num x, .str "PUSH", .num y, .str "MINUS"]) =
        .reported (.num (x - y)) := by
    intro x y
    rw [virtualMachine_eq_run, run_append _ _ _ (aligned_of_wellFormedFrom 0 p h),
      run_push_push_plain _ _ _ _ (by decide)]
    have hne : (Value.str "MINUS" = Value.str "ADD") = False := by decide
    simp only [Core.plain, hne, if_false, if_true]
    rw [top_binary_push_push]
    rfl
  refine ⟨key a b, fun hab => ?_, ?_, ?_, ?_⟩
  · rw [key]
    intro heq
    injection heq with h1
    injection h1 with h2
    exact hab h2
  · rw [key]; decide
  · rw [key]; decide
  · rw [key]; decide

theorem minus_pop_order_witness :
    wellFormed [.str "PUSH", .num 9, .str "PUSH", .num 1, .str "ADD"] = true
    ∧ virtualMachine .undefined .undefined
        ([.str "PUSH", .num 9, .str "PUSH", .num 1, .str "ADD"] ++
          [.str "PUSH", .num 3, .str "PUSH", .num 4, .str "MINUS"]) = .reported (.num (3 - 4)) :=
  ⟨by decide,
   (minus_pop_order .undefined .undefined
      [.str "PUSH", .num 9, .str "PUSH", .num 1, .str "ADD"] 3 4 (by decide)).1⟩

theorem loop_succ_right (k : Nat) (s : State) :
    loop (k + 1) s =
      if (loop k s).programCounter < s.program.length then step (loop k s) else loop k s := by
  induction k generalizing s with
  | zero => simp [loop]
  | succ k ih =>
    rw [loop]
    by_cases hlt : s.programCounter < s.program.length
    · rw [if_pos hlt, ih (step s), step_program]
      conv_rhs => rw [loop, if_pos hlt]
    · rw [if_neg hlt]
      conv_rhs => rw [loop, if_neg hlt]
      simp [hlt]

/-- The indices below 0 were never written and the stack pointer is not negative. -/
theorem step_keeps_clean (s : State)
    (hop : index s.program s.programCounter = .str "ADD"
      ∨ index s.program s.programCounter = .str "MINUS" → 2 ≤ s.stackPointer)
    (h : 0 ≤ s.stackPointer ∧ ∀ i : Int, i < 0 → s.stack i = .undefined) :
    0 ≤ (step s).stackPointer ∧ ∀ i : Int, i < 0 → (step s).stack i = .undefined := by
  obtain ⟨h0, hneg⟩ := h
  unfold step casePUSH caseADD caseMINUS
  dsimp only
  split_ifs with h1 h2 h3
  · refine ⟨by dsimp only; omega, fun i hi => ?_⟩
    dsimp only [store]
    rw [if_neg (by omega)]
    exact hneg i hi
  · have := hop (Or.inl h2)
    refine ⟨by dsimp only; omega, fun i hi => ?_⟩
    dsimp only [store]
    rw [if_neg (by omega)]
    exact hneg i hi
  · have := hop (Or.inr h3)
    refine ⟨by dsimp only; omega, fun i hi => ?_⟩
    dsimp only [store]
    rw [if_neg (by omega)]
    exact hneg i hi
  · exact ⟨h0, hneg⟩

theorem loop_keeps_clean (l r : Value) (p : List Value) (h : neverUnderflows l r p) (k : Nat)
    (hk : k ≤ p.length) :
    0 ≤ (loop k (initial l r p)).stackPointer
      ∧ ∀ i : Int, i < 0 → (loop k (initial l r p)).stack i = .undefined := by
  induction k with
  | zero => exact ⟨le_refl _, fun _ _ => rfl⟩
  | succ k ih =>
    rw [loop_succ_right]
    have hp : (loop k (initial l r p)).program = p := loop_program k _
    have ih := ih (by omega)
    split_ifs with hlt
    · apply step_keeps_clean _ _ ih
      rw [hp]
      exact h k (by omega) hlt
    · exact ih

/-- C4, as stated, fails: `[ADD]` does not fail with StackUnderflow, it reports
`NaN`. -/
theorem underflow_counterexample :
    virtualMachine .undefined .undefined [.str "ADD"] = .reported .nan
    ∧ ¬ (virtualMachine .undefined .undefined [.str "ADD"] = .failed .StackUnderflow) := by
  decide

/-- C4, amended: the bodies of `case 'ADD'` and `case 'MINUS'` have no guard on
the stack depth. Whatever `stackPointer` is, they read `stack[stackPointer - 1]`
and `stack[stackPointer - 2]` (`undefined` where nothing was written), store
the sum or difference at index `stackPointer - 2` and lower `stackPointer` by
one; every call reports a value; `[ADD]`, `[MINUS]` and `[PUSH,n,ADD]` report
`NaN`. -/
theorem underflow_unguarded (l r : Value) :
    (∀ s : State,
      (caseADD s).stackPointer = s.stackPointer - 1
      ∧ (caseADD s).stack (s.stackPointer - 2) =
          jsAdd (s.stack (s.stackPointer - 2)) (s.stack (s.stackPointer - 1)))
    ∧ (∀ s : State,
      (caseMINUS s).stackPointer = s.stackPointer - 1
      ∧ (caseMINUS s).stack (s.stackPointer - 2) =
          jsSub (s.stack (s.stackPointer - 2)) (s.stack (s.stackPointer - 1)))
    ∧ (∀ p : List Value, ∃ v, virtualMachine l r p = .reported v)
    ∧ virtualMachine l r [.str "ADD"] = .reported .nan
    ∧ virtualMachine l r [.str "MINUS"] = .reported .nan
    ∧ (∀ n : Number,
        virtualMachine l r [.str "PUSH", .num n, .str "ADD"] = .reported .nan) := by
  have hidx : ∀ x : Int, x - 1 - 1 = x - 2 := fun x => by omega
  refine ⟨fun s => ⟨?_, ?_⟩, fun s => ⟨?_, ?_⟩, fun p => ⟨_, rfl⟩, ?_, ?_, fun n => ?_⟩
  · unfold caseADD; dsimp only; omega
  · unfold caseADD; dsimp only [store]; rw [hidx, if_pos rfl]
  · unfold caseMINUS; dsimp only; omega
  · unfold caseMINUS; dsimp only [store]; rw [hidx, if_pos rfl]
  · rw [virtualMachine_eq_run]; decide
  · rw [virtualMachine_eq_run]; decide
  · rw [virtualMachine_eq_run]
    simp [run, Core.push, Core.plain, Core.binary, Core.top, Core.empty, store, jsAdd, toNumber]
    rw [Number.nan_add]
    rfl

/-- C5, as stated, fails: `[PUSH]` does not fail with MissingOperand, it pushes
the `undefined` read at `program[1]` and reports it. -/
theorem missing_operand_counterexample :
    virtualMachine .undefined .undefined [.str "PUSH"] = .reported .undefined
    ∧ ¬ (virtualMachine .undefined .undefined [.str "PUSH"] = .failed .MissingOperand) := by
  decide

/-- C5, amended: when a `'PUSH'` in opcode position is the last token of the
stream, the call does not fail; the out-of-bounds read `program[PC+1]` gives
`undefined`, which is pushed and reported. -/
theorem trailing_push_reports_undefined (l r : Value) (p : List Value)
    (h : aligned p = true) :
    virtualMachine l r (p ++ [.str "PUSH"]) = .reported .undefined := by
  rw [virtualMachine_eq_run, run_append _ _ _ h]
  simp only [run, if_true]
  rw [top_push]

theorem trailing_push_reports_undefined_witness :
    aligned [.str "PUSH", .num 3] = true
    ∧ virtualMachine .undefined .undefined ([.str "PUSH", .num 3] ++ [.str "PUSH"]) =
        .reported .undefined :=
  ⟨by decide,
   trailing_push_reports_undefined .undefined .undefined [.str "PUSH", .num 3] (by decide)⟩

/-- C6, as stated, fails: `[PUSH,'ADD']` does not fail with MissingOperand, it
reports the string `'ADD'`; and in `[PUSH,3,PUSH,'ADD',ADD]` the string flows
into the addition, which reports `'3ADD'`. -/
theorem non_numeric_operand_counterexample :
    virtualMachine .undefined .undefined [.str "PUSH", .str "ADD"] = .reported (.str "ADD")
    ∧ ¬ (virtualMachine .undefined .undefined [.str "PUSH", .str "ADD"] =
          .failed .MissingOperand)
    ∧ virtualMachine .undefined .undefined
        [.str "PUSH", .num 3, .str "PUSH", .str "ADD", .str "ADD"] = .reported (.str "3ADD") := by
  decide

/-- C6, amended: the body of `case 'PUSH'` stores the token after the `'PUSH'`
as it is, numeric or not, and the call does not fail: a stream that ends with
`PUSH, t` in opcode position reports `t`; a non-numeric token pushed earlier
flows into later arithmetic under JavaScript's coercions, so
`[PUSH,3,PUSH,'ADD',ADD]` reports the string `'3ADD'`. -/
theorem push_stores_any_token (l r : Value) (p : List Value) (t : Value)
    (h : aligned p = true) :
    virtualMachine l r (p ++ [.str "PUSH", t]) = .reported t
    ∧ (∀ s : State,
        (casePUSH s).stack s.stackPointer = index s.program (s.programCounter + 1)
        ∧ (casePUSH s).stackPointer = s.stackPointer + 1)
    ∧ virtualMachine l r [.str "PUSH", .num 3, .str "PUSH", .str "ADD", .str "ADD"] =
        .reported (.str "3ADD") := by
  refine ⟨?_, fun s => ⟨?_, rfl⟩, ?_⟩
  · rw [virtualMachine_eq_run, run_append _ _ _ h]
    simp only [run, if_true]
    rw [top_push]
  · unfold casePUSH; dsimp only [store]; rw [if_pos rfl]
  · rw [virtualMachine_eq_run]; decide

theorem push_stores_any_token_witness :
    aligned [.str "PUSH", .num 3] = true
    ∧ virtualMachine .undefined .undefined ([.str "PUSH", .num 3] ++ [.str "PUSH", .str "ADD"]) =
        .reported (.str "ADD") :=
  ⟨by decide,
   (push_stores_any_token .undefined .undefined [.str "PUSH", .num 3] (.str "ADD")
      (by decide)).1⟩

/-- C7, as stated, fails: `['FOO']` does not fail with UnknownOpcode, it reports
`undefined`. -/
theorem unknown_opcode_counterexample :
    virtualMachine .undefined .undefined [.str "FOO"] = .reported .undefined
    ∧ ¬ (virtualMachine .undefined .undefined [.str "FOO"] = .failed .UnknownOpcode) := by
  decide

/-- C7, amended: when the token read at the program counter is not one of
`'PUSH'`, `'ADD'`, `'MINUS'`, the `switch` matches no case: the iteration only
advances the program counter by 1 and execution goes on without an error;
`['FOO']` reports `undefined`. -/
theorem unknown_opcode_skipped (l r : Value) (s : State)
    (h1 : index s.program s.programCounter ≠ .str "PUSH")
    (h2 : index s.program s.programCounter ≠ .str "ADD")
    (h3 : index s.program s.programCounter ≠ .str "MINUS") :
    step s = { s with programCounter := s.programCounter + 1 }
    ∧ virtualMachine l r [.str "FOO"] = .reported .undefined := by
  constructor
  · unfold step
    dsimp only
    rw [if_neg h1, if_neg h2, if_neg h3]
  · rw [virtualMachine_eq_run]; decide

theorem unknown_opcode_skipped_witness :
    index (initial .undefined .undefined [.str "FOO"]).program
        (initial .undefined .undefined [.str "FOO"]).programCounter = .str "FOO"
    ∧ (step (initial .undefined .undefined [.str "FOO"])).programCounter = 1
    ∧ (step (initial .undefined .undefined [.str "FOO"])).stackPointer = 0 :=
  ⟨rfl,
   congrArg State.programCounter
     (unknown_opcode_skipped .undefined .undefined (initial .undefined .undefined [.str "FOO"])
       (by decide) (by decide) (by decide)).1,
   congrArg State.stackPointer
     (unknown_opcode_skipped .undefined .undefined (initial .undefined .undefined [.str "FOO"])
       (by decide) (by decide) (by decide)).1⟩

/-- C8, as stated, fails: the empty stream does not fail with EmptyResult, it
reports `undefined`. And a loop left with `stackPointer = 0` need not even
report `undefined`: after the underflow of `[ADD,PUSH,5]` the push lands at
index -1, the stack pointer ends at 0 and the call reports 5. -/
theorem empty_stream_counterexample :
    virtualMachine .undefined .undefined [] = .reported .undefined
    ∧ ¬ (virtualMachine .undefined .undefined [] = .failed .EmptyResult)
    ∧ (finalState .undefined .undefined [.str "ADD", .str "PUSH", .num 5]).stackPointer = 0
    ∧ virtualMachine .undefined .undefined [.str "ADD", .str "PUSH", .num 5] =
        .reported (.num 5) := by
  decide

/-- C8, amended: the empty stream reports `undefined`; more generally, whenever
the loop is left with `stackPointer = 0` and no `'ADD'` or `'MINUS'` ran with
fewer than two values, the call reports `undefined` (the never-written
`stack[-1]`), not an error. -/
theorem empty_stack_reports_undefined (l r : Value) (p : List Value)
    (hclean : neverUnderflows l r p) (hempty : (finalState l r p).stackPointer = 0) :
    virtualMachine l r p = .reported .undefined
    ∧ virtualMachine l r [] = .reported .undefined := by
  refine ⟨?_, rfl⟩
  have h := (loop_keeps_clean l r p hclean p.length (le_refl _)).2
  unfold virtualMachine
  dsimp only
  rw [hempty]
  unfold finalState
  rw [h _ (by decide)]

theorem empty_stack_reports_undefined_witness :
    neverUnderflows .undefined .undefined [.str "FOO"]
    ∧ (finalState .undefined .undefined [.str "FOO"]).stackPointer = 0
    ∧ virtualMachine .undefined .undefined [.str "FOO"] = .reported .undefined :=
  ⟨by decide, rfl,
   (empty_stack_reports_undefined .undefined .undefined [.str "FOO"] (by decide) rfl).1⟩

/-- C9: the reported result depends on the stream alone. Whatever earlier calls
left in the variables `left` and `right`, the call reports the same value; the
bodies of `case 'ADD'` and `case 'MINUS'` assign both variables before reading
them, so the state they produce does not depend on the incoming values. -/
theorem result_depends_on_stream_only (p : List Value) (l r l' r' : Value) :
    virtualMachine l r p = virtualMachine l' r' p
    ∧ (∀ s : State, caseADD { s with left := l, right := r } = caseADD s)
    ∧ (∀ s : State, caseMINUS { s with left := l, right := r } = caseMINUS s) := by
  refine ⟨?_, fun s => rfl, fun s => rfl⟩
  rw [virtualMachine_eq_run, virtualMachine_eq_run]

/-- C10: the stream is never written: every iteration leaves `program` as it
was, and the program array at the end of the call is the one passed in (same
length, same token at every index). -/
theorem program_unchanged (l r : Value) (p : List Value) :
    (∀ s : State, (step s).program = s.program)
    ∧ (finalState l r p).program = p
    ∧ (finalState l r p).program.length = p.length
    ∧ (∀ i : Nat, index (finalState l r p).program i = index p i) := by
  have h : (finalState l r p).program = p := loop_program _ _
  exact ⟨step_program, h, by rw [h], fun i => by rw [h]⟩

/-! ## Termination and the program counter -/

theorem step_programCounter_lt (s : State) : s.programCounter < (step s).programCounter := by
  rw [step_programCounter]
  split_ifs <;> omega

theorem loop_of_exited (k : Nat) (s : State) (h : s.program.length ≤ s.programCounter) :
    loop k s = s := by
  cases k with
  | zero => rfl
  | succ k => rw [loop, if_neg (by omega)]

theorem loop_add (a b : Nat) (s : State) : loop (a + b) s = loop b (loop a s) := by
  induction a generalizing s with
  | zero => simp [loop]
  | succ a ih =>
    rw [Nat.add_right_comm, loop]
    by_cases hlt : s.programCounter < s.program.length
    · rw [if_pos hlt, ih]
      conv_rhs => rw [loop, if_pos hlt]
    · rw [if_neg hlt]
      conv_rhs => rw [loop, if_neg hlt]
      rw [loop_of_exited b s (by omega)]

theorem loop_programCounter_mono (s : State) (j k : Nat) (h : j ≤ k) :
    (loop j s).programCounter ≤ (loop k s).programCounter := by
  induction k with
  | zero =>
    have : j = 0 := by omega
    rw [this]
  | succ k ih =>
    by_cases hj : j = k + 1
    · rw [hj]
    · have ih := ih (by omega)
      rw [loop_succ_right]
      split_ifs
      · have := step_programCounter_lt (loop k s)
        omega
      · exact ih

/-- C11: for every stream the loop ends. Each iteration strictly increases the
program counter, so after `length(stream)` iterations the counter has reached
the length, further iterations change nothing, and the call has exactly one
outcome. -/
theorem loop_terminates (l r : Value) (p : List Value) :
    (∀ s : State, s.programCounter < (step s).programCounter)
    ∧ p.length ≤ (finalState l r p).programCounter
    ∧ (∀ k : Nat, loop (p.length + k) (initial l r p) = finalState l r p)
    ∧ (∃! o : Outcome, virtualMachine l r p = o) := by
  have hexit : p.length ≤ (finalState l r p).programCounter :=
    loop_exits p.length (initial l r p) (by simp [initial])
  refine ⟨step_programCounter_lt, hexit, fun k => ?_, ⟨_, rfl, fun o h => h.symm⟩⟩
  rw [loop_add]
  apply loop_of_exited
  rw [loop_program]
  exact hexit

/-- C13: the program counter starts at 0; an iteration that dispatches `'PUSH'`
advances it by exactly 2, one that dispatches `'ADD'` or `'MINUS'` by exactly
1; the loop goes on while the counter is below the length and stops as soon as
it is not; and the position after a dispatched `'PUSH'`, which holds its
operand, is never the program counter of any iteration. -/
theorem programCounter_discipline (l r : Value) (p : List Value) :
    (initial l r p).programCounter = 0
    ∧ (∀ s : State, index s.program s.programCounter = .str "PUSH" →
        (step s).programCounter = s.programCounter + 2)
    ∧ (∀ s : State,
        index s.program s.programCounter = .str "ADD"
          ∨ index s.program s.programCounter = .str "MINUS" →
        (step s).programCounter = s.programCounter + 1)
    ∧ (∀ (k : Nat) (s : State), s.programCounter < s.program.length →
        loop (k + 1) s = loop k (step s))
    ∧ (∀ (k : Nat) (s : State), s.program.length ≤ s.programCounter → loop k s = s)
    ∧ (∀ k j : Nat, (loop k (initial l r p)).programCounter < p.length →
        index p (loop k (initial l r p)).programCounter = .str "PUSH" →
        (loop j (initial l r p)).programCounter ≠
          (loop k (initial l r p)).programCounter + 1) := by
  refine ⟨rfl, fun s h => ?_, fun s h => ?_, fun k s h => ?_, fun k s h => loop_of_exited k s h,
    fun k j hlt hpush => ?_⟩
  · rw [step_programCounter, if_pos h]
  · rw [step_programCounter, if_neg]
    rcases h with h | h <;> rw [h] <;> decide
  · rw [loop, if_pos h]
  · have hp : (loop k (initial l r p)).program = p := loop_program k _
    by_cases hjk : j ≤ k
    · have := loop_programCounter_mono (initial l r p) j k hjk
      omega
    · have hmono := loop_programCounter_mono (initial l r p) (k + 1) j (by omega)
      rw [loop_succ_right k, if_pos (by simpa [initial] using hlt), step_programCounter,
        hp, if_pos hpush] at hmono
      omega

theorem programCounter_discipline_witness :
    (loop 0 (initial .undefined .undefined program)).programCounter < program.length
    ∧ index program (loop 0 (initial .undefined .undefined program)).programCounter =
        .str "PUSH"
    ∧ (loop 1 (initial .undefined .undefined program)).programCounter ≠
        (loop 0 (initial .undefined .undefined program)).programCounter + 1 :=
  ⟨by decide, by decide,
   (programCounter_discipline .undefined .undefined program).2.2.2.2.2 0 1
     (by decide) (by decide)⟩

/-! ## The logical stack -/

theorem slots_length (st : Int → Value) (n : Nat) : (slots st n).length = n := by
  simp [slots]

theorem slots_succ (st : Int → Value) (n : Nat) :
    slots st (n + 1) = slots st n ++ [st (n : Int)] := by
  simp [slots, List.range_succ]

theorem slots_store (st : Int → Value) (n : Nat) (m : Int) (v : Value) (h : (n : Int) ≤ m) :
    slots (store st m v) n = slots st n := by
  unfold slots
  apply List.map_congr_left
  intro i hi
  have hi : i < n := List.mem_range.mp hi
  simp only [store, Int.ofNat_eq_coe]
  rw [if_neg (by omega)]

theorem holds_iff (st : Int → Value) (sp : Int) (xs : List Value) :
    Core.holds ⟨st, sp⟩ xs ↔ sp = (xs.length : Int) ∧ slots st xs.length = xs := by
  unfold Core.holds Core.entries
  constructor
  · rintro ⟨h1, h2⟩
    dsimp only at h1 h2
    subst h1
    exact ⟨rfl, by simpa using h2⟩
  · rintro ⟨h1, h2⟩
    subst h1
    exact ⟨rfl, by simpa using h2⟩

theorem holds_empty : Core.empty.holds [] := by
  unfold Core.empty
  rw [holds_iff]
  exact ⟨rfl, rfl⟩

theorem holds_push (c : Core) (xs : List Value) (v : Value) (h : c.holds xs) :
    (c.push v).holds (xs ++ [v]) := by
  rcases c with ⟨st, sp⟩
  rw [holds_iff] at h
  obtain ⟨hsp, hent⟩ := h
  subst hsp
  unfold Core.push
  rw [holds_iff]
  refine ⟨by simp, ?_⟩
  simp only [List.length_append, List.length_singleton]
  rw [slots_succ, slots_store _ _ _ _ (le_refl _), hent]
  simp [store]

theorem holds_binary (f : Value → Value → Value) (c : Core) (xs : List Value) (l r : Value)
    (h : c.holds (xs ++ [l, r])) :
    (c.binary f).holds (xs ++ [f l r]) := by
  rcases c with ⟨st, sp⟩
  rw [holds_iff] at h
  obtain ⟨hsp, hent⟩ := h
  have hlen : (xs ++ [l, r]).length = xs.length + 1 + 1 := by simp
  rw [hlen] at hsp hent
  subst hsp
  rw [slots_succ, slots_succ, List.append_assoc] at hent
  have hpair := List.append_inj hent (by simp [slots_length])
  obtain ⟨hxs, hlr⟩ := hpair
  simp only [List.singleton_append, List.cons.injEq, and_true] at hlr
  obtain ⟨hl, hr⟩ := hlr
  unfold Core.binary
  rw [holds_iff]
  have h1 : ((xs.length + 1 + 1 : Nat) : Int) - 1 - 1 = (xs.length : Int) := by push_cast; omega
  have h2 : ((xs.length + 1 + 1 : Nat) : Int) - 1 = ((xs.length + 1 : Nat) : Int) := by
    push_cast; omega
  dsimp only
  rw [h1, h2]
  refine ⟨by simp, ?_⟩
  simp only [List.length_append, List.length_singleton]
  rw [slots_succ, slots_store _ _ _ _ (le_refl _), hxs, hl, hr]
  simp [store]

theorem holds_top (c : Core) (xs : List Value) (v : Value) (h : c.holds (xs ++ [v])) :
    c.top = v := by
  rcases c with ⟨st, sp⟩
  rw [holds_iff] at h
  obtain ⟨hsp, hent⟩ := h
  have hlen : (xs ++ [v]).length = xs.length + 1 := by simp
  rw [hlen] at hsp hent
  subst hsp
  rw [slots_succ] at hent
  have hpair := List.append_inj hent (by simp [slots_length])
  have hv : st (xs.length : Int) = v := by simpa using hpair.2
  unfold Core.top
  dsimp only
  have h1 : ((xs.length + 1 : Nat) : Int) - 1 = (xs.length : Int) := by push_cast; omega
  rw [h1, hv]

/-- C14: in a state whose logical stack is `xs ++ [l, r]`, with `l` and `r`
Numbers, an iteration that dispatches `'ADD'` leaves the logical stack
`xs ++ [l + r]` and one that dispatches `'MINUS'` leaves `xs ++ [l - r]`, in
the arithmetic of Numbers (the stack pointer goes down by one, `xs` is
untouched); in a state whose logical stack is `xs`, an iteration that
dispatches `'PUSH'` leaves `xs ++ [operand]` (the stack pointer goes up by
one, `xs` is untouched). -/
theorem step_stack_effect (s : State) (xs : List Value) :
    (∀ l r : Number, index s.program s.programCounter = .str "ADD" →
        s.core.holds (xs ++ [.num l, .num r]) →
        (step s).core.holds (xs ++ [.num (l + r)])
          ∧ (step s).stackPointer = s.stackPointer - 1)
    ∧ (∀ l r : Number, index s.program s.programCounter = .str "MINUS" →
        s.core.holds (xs ++ [.num l, .num r]) →
        (step s).core.holds (xs ++ [.num (l - r)])
          ∧ (step s).stackPointer = s.stackPointer - 1)
    ∧ (index s.program s.programCounter = .str "PUSH" → s.core.holds xs →
        (step s).core.holds (xs ++ [index s.program (s.programCounter + 1)])
          ∧ (step s).stackPointer = s.stackPointer + 1) := by
  have hsp : ∀ t : State, t.stackPointer = t.core.stackPointer := fun _ => rfl
  refine ⟨fun l r hop h => ?_, fun l r hop h => ?_, fun hop h => ?_⟩
  · have hcore : (step s).core = s.core.binary jsAdd := by
      rw [step_core, hop, if_neg (by decide)]
      simp [Core.plain]
    refine ⟨by rw [hcore]; exact holds_binary jsAdd _ _ _ _ h, ?_⟩
    rw [hsp, hcore]
    simp only [Core.binary, State.core]
    omega
  · have hcore : (step s).core = s.core.binary jsSub := by
      rw [step_core, hop, if_neg (by decide)]
      simp [Core.plain]
    refine ⟨by rw [hcore]; exact holds_binary jsSub _ _ _ _ h, ?_⟩
    rw [hsp, hcore]
    simp only [Core.binary, State.core]
    omega
  · have hcore : (step s).core = s.core.push (index s.program (s.programCounter + 1)) := by
      rw [step_core, if_pos hop]
    refine ⟨by rw [hcore]; exact holds_push _ _ _ h, ?_⟩
    rw [hsp, hcore]
    rfl

theorem step_stack_effect_witness :
    index (loop 2 (initial .undefined .undefined program)).program
        (loop 2 (initial .undefined .undefined program)).programCounter = .str "ADD"
    ∧ (loop 2 (initial .undefined .undefined program)).core.holds ([] ++ [.num 3, .num 4])
    ∧ (step (loop 2 (initial .undefined .undefined program))).core.holds
        ([] ++ [.num (3 + 4)]) :=
  ⟨by decide, by decide,
   ((step_stack_effect (loop 2 (initial .undefined .undefined program)) []).1
      3 4 (by decide) (by decide)).1⟩

/-! ## The reference machine -/

theorem ideal_push (x : Value) (rest xs : List Value) :
    ideal (.str "PUSH" :: x :: rest) xs = ideal rest (x :: xs) := by
  simp [ideal]

theorem ideal_plain (t : Value) (l xs : List Value) (ht : t ≠ .str "PUSH") :
    ideal (t :: l) xs = (idealPlain t xs).bind (ideal l) := by
  cases l with
  | nil =>
    simp only [ideal, if_neg ht]
    cases idealPlain t xs <;> rfl
  | cons x rest =>
    simp only [ideal, if_neg ht]
    cases idealPlain t xs <;> rfl

theorem holds_plain (t : Value) (c : Core) (xs ys : List Value)
    (hc : c.holds xs.reverse) (h : idealPlain t xs = some ys) :
    (c.plain t).holds ys.reverse := by
  unfold idealPlain at h
  unfold Core.plain
  split_ifs at h ⊢
  · match xs, h, hc with
    | r :: l :: rest, h, hc =>
      simp only [Option.some.injEq] at h
      subst h
      simp only [List.reverse_cons, List.append_assoc, List.singleton_append] at hc ⊢
      exact holds_binary _ _ _ _ _ hc
  · match xs, h, hc with
    | r :: l :: rest, h, hc =>
      simp only [Option.some.injEq] at h
      subst h
      simp only [List.reverse_cons, List.append_assoc, List.singleton_append] at hc ⊢
      exact holds_binary _ _ _ _ _ hc
  · simp only [Option.some.injEq] at h
    subst h
    exact hc

theorem run_refines (q : List Value) (c : Core) (xs ys : List Value)
    (hc : c.holds xs.reverse) (h : ideal q xs = some ys) :
    (run q c).holds ys.reverse := by
  induction q using aligned.induct generalizing c xs with
  | case1 =>
    simp only [ideal, Option.some.injEq] at h
    subst h
    exact hc
  | case2 t =>
    by_cases ht : t = .str "PUSH"
    · simp [ideal, ht] at h
    · simp only [ideal, if_neg ht] at h
      simp only [run, if_neg ht]
      exact holds_plain t c xs ys hc h
  | case3 x rest ih =>
    rw [ideal_push] at h
    simp only [run, if_true]
    apply ih (c.push x) (x :: xs) _ h
    rw [List.reverse_cons]
    exact holds_push c _ x hc
  | case4 t x rest ht ih =>
    rw [ideal_plain _ _ _ ht, Option.bind_eq_some] at h
    obtain ⟨zs, hzs, hys⟩ := h
    simp only [run, if_neg ht]
    exact ih (c.plain t) zs (holds_plain t c xs zs hc hzs) hys

theorem ideal_aligned (p : List Value) (xs ys : List Value) (h : ideal p xs = some ys) :
    aligned p = true := by
  induction p using aligned.induct generalizing xs with
  | case1 => rfl
  | case2 t =>
    by_cases ht : t = .str "PUSH"
    · simp [ideal, ht] at h
    · simp [aligned, ht]
  | case3 x rest ih =>
    rw [ideal_push] at h
    simp only [aligned, if_true]
    exact ih _ h
  | case4 t x rest ht ih =>
    rw [ideal_plain _ _ _ ht, Option.bind_eq_some] at h
    obtain ⟨zs, _, hys⟩ := h
    simp only [aligned, if_neg ht]
    exact ih _ hys

theorem ideal_append (p q xs : List Value) (h : aligned p = true) :
    ideal (p ++ q) xs = (ideal p xs).bind (ideal q) := by
  induction p using aligned.induct generalizing xs with
  | case1 => simp [ideal]
  | case2 t =>
    have ht : t ≠ .str "PUSH" := by simpa [aligned] using h
    rw [List.singleton_append, ideal_plain _ _ _ ht, ideal_plain _ _ _ ht]
    cases idealPlain t xs <;> simp [ideal]
  | case3 x rest ih =>
    have h2 : aligned rest = true := by simpa [aligned] using h
    rw [List.cons_append, List.cons_append, ideal_push, ideal_push]
    exact ih _ h2
  | case4 t x rest ht ih =>
    have h2 : aligned (x :: rest) = true := by simpa [aligned, ht] using h
    rw [List.cons_append, ideal_plain _ _ _ ht, ideal_plain _ _ _ ht]
    cases hz : idealPlain t xs with
    | none => rfl
    | some zs =>
      simp only [Option.some_bind]
      exact ih zs h2

theorem idealPlain_frame (t : Value) (xs ys base : List Value)
    (h : idealPlain t xs = some ys) :
    idealPlain t (xs ++ base) = some (ys ++ base) := by
  unfold idealPlain at h ⊢
  split_ifs at h ⊢
  · match xs, h with
    | r :: l :: rest, h =>
      simp only [Option.some.injEq] at h
      subst h
      rfl
  · match xs, h with
    | r :: l :: rest, h =>
      simp only [Option.some.injEq] at h
      subst h
      rfl
  · simp only [Option.some.injEq] at h
    subst h
    rfl

theorem ideal_frame (q xs ys base : List Value) (h : ideal q xs = some ys) :
    ideal q (xs ++ base) = some (ys ++ base) := by
  induction q using aligned.induct generalizing xs with
  | case1 =>
    simp only [ideal, Option.some.injEq] at h
    subst h
    rfl
  | case2 t =>
    by_cases ht : t = .str "PUSH"
    · simp [ideal, ht] at h
    · simp only [ideal, if_neg ht] at h ⊢
      exact idealPlain_frame t xs ys base h
  | case3 x rest ih =>
    rw [ideal_push] at h ⊢
    exact ih (x :: xs) h
  | case4 t x rest ht ih =>
    rw [ideal_plain _ _ _ ht, Option.bind_eq_some] at h
    obtain ⟨zs, hzs, hys⟩ := h
    rw [ideal_plain _ _ _ ht, idealPlain_frame t xs zs base hzs]
    exact ih zs hys

theorem idealPlain_of_depth (t : Value) (xs : List Value)
    (h : t = .str "ADD" ∨ t = .str "MINUS" → 2 ≤ xs.length) :
    ∃ zs, idealPlain t xs = some zs
      ∧ zs.length = if t = .str "ADD" ∨ t = .str "MINUS" then xs.length - 1 else xs.length := by
  unfold idealPlain
  by_cases h1 : t = .str "ADD"
  · have := h (Or.inl h1)
    match xs, this with
    | r :: l :: rest, _ => exact ⟨_, by rw [if_pos h1], by simp [h1]⟩
  · by_cases h2 : t = .str "MINUS"
    · have := h (Or.inr h2)
      match xs, this with
      | r :: l :: rest, _ => exact ⟨_, by rw [if_neg h1, if_pos h2], by simp [h2]⟩
    · exact ⟨xs, by rw [if_neg h1, if_neg h2], by simp [h1, h2]⟩

theorem ideal_of_disciplined (p : List Value) (d : Nat) (xs : List Value)
    (hd : xs.length = d) (h : disciplinedFrom d p = true) :
    ∃ ys, ideal p xs = some ys := by
  induction p using aligned.induct generalizing d xs with
  | case1 => exact ⟨xs, rfl⟩
  | case2 t =>
    by_cases ht : t = .str "PUSH"
    · simp [disciplinedFrom, ht] at h
    · simp only [disciplinedFrom, if_neg ht] at h
      simp only [ideal, if_neg ht]
      have hdepth : t = .str "ADD" ∨ t = .str "MINUS" → 2 ≤ xs.length := by
        intro hop
        rw [if_pos hop] at h
        rw [hd]
        exact of_decide_eq_true h
      obtain ⟨zs, hzs, _⟩ := idealPlain_of_depth t xs hdepth
      exact ⟨zs, hzs⟩
  | case3 x rest ih =>
    simp only [disciplinedFrom, if_true] at h
    rw [ideal_push]
    exact ih (d + 1) (x :: xs) (by simp [hd]) h
  | case4 t x rest ht ih =>
    simp only [disciplinedFrom, if_neg ht] at h
    rw [ideal_plain _ _ _ ht]
    by_cases hop : t = .str "ADD" ∨ t = .str "MINUS"
    · rw [if_pos hop, Bool.and_eq_true] at h
      have h2 : 2 ≤ xs.length := by rw [hd]; exact of_decide_eq_true h.1
      obtain ⟨zs, hzs, hlen⟩ := idealPlain_of_depth t xs (fun _ => h2)
      rw [if_pos hop] at hlen
      rw [hzs]
      exact ih (d - 1) zs (by rw [hlen, hd]) h.2
    · rw [if_neg hop] at h
      obtain ⟨zs, hzs, hlen⟩ := idealPlain_of_depth t xs (fun h' => absurd h' hop)
      rw [if_neg hop] at hlen
      rw [hzs]
      exact ih d zs (by rw [hlen, hd]) h

theorem disciplined_of_wellFormed (p : List Value) (d : Nat) (h : wellFormedFrom d p = true) :
    disciplinedFrom d p = true := by
  induction p using aligned.induct generalizing d with
  | case1 => rfl
  | case2 t =>
    simp only [wellFormedFrom, decide_eq_true_eq] at h
    have ht : t ≠ .str "PUSH" := by rcases h.1 with h1 | h1 <;> rw [h1] <;> decide
    simp only [disciplinedFrom, if_neg ht, if_pos h.1]
    exact decide_eq_true h.2
  | case3 x rest ih =>
    simp only [wellFormedFrom, if_true] at h
    simp only [disciplinedFrom, if_true]
    cases x with
    | num n => exact ih (d + 1) h
    | str _ => simp at h
    | undefined => simp at h
  | case4 t x rest ht ih =>
    simp only [wellFormedFrom, if_neg ht] at h
    simp only [disciplinedFrom, if_neg ht]
    split_ifs at h ⊢
    rw [Bool.and_eq_true] at h ⊢
    exact ⟨h.1, ih (d - 1) h.2⟩

theorem ideal_ne_nil_of_wellFormed (p : List Value) (d : Nat) (xs ys : List Value)
    (hwf : wellFormedFrom d p = true) (hne : p ≠ []) (h : ideal p xs = some ys) :
    ys ≠ [] := by
  induction p using aligned.induct generalizing d xs with
  | case1 => exact absurd rfl hne
  | case2 t =>
    simp only [wellFormedFrom, decide_eq_true_eq] at hwf
    have ht : t ≠ .str "PUSH" := by rcases hwf.1 with h1 | h1 <;> rw [h1] <;> decide
    simp only [ideal, if_neg ht] at h
    unfold idealPlain at h
    rcases hwf.1 with h1 | h1
    · rw [if_pos h1] at h
      match xs, h with
      | r :: l :: rest, h =>
        simp only [Option.some.injEq] at h
        rw [← h]
        exact List.cons_ne_nil _ _
    · rw [if_neg (by rw [h1]; decide), if_pos h1] at h
      match xs, h with
      | r :: l :: rest, h =>
        simp only [Option.some.injEq] at h
        rw [← h]
        exact List.cons_ne_nil _ _
  | case3 x rest ih =>
    simp only [wellFormedFrom, if_true] at hwf
    rw [ideal_push] at h
    cases x with
    | num n =>
      by_cases hrest : rest = []
      · subst hrest
        simp only [ideal, Option.some.injEq] at h
        rw [← h]
        exact List.cons_ne_nil _ _
      · exact ih (d + 1) _ hwf hrest h
    | str _ => simp at hwf
    | undefined => simp at hwf
  | case4 t x rest ht ih =>
    simp only [wellFormedFrom, if_neg ht] at hwf
    rw [ideal_plain _ _ _ ht, Option.bind_eq_some] at h
    obtain ⟨zs, _, hys⟩ := h
    split_ifs at hwf
    rw [Bool.and_eq_true] at hwf
    exact ih (d - 1) zs hwf.2 (List.cons_ne_nil _ _) hys

theorem finalState_core (l r : Value) (p : List Value) :
    (finalState l r p).core = run p Core.empty := by
  have h := loop_core p.length (initial l r p) (by simp [initial])
  simpa [initial, finalState] using h

theorem finalState_holds (l r : Value) (p : List Value) (ys : List Value)
    (h : ideal p [] = some ys) :
    (finalState l r p).core.holds ys.reverse := by
  rw [finalState_core]
  exact run_refines p Core.empty [] ys holds_empty h

theorem virtualMachine_eq_top (l r : Value) (p : List Value) :
    virtualMachine l r p = .reported (finalState l r p).core.top :=
  rfl

theorem finalState_stackPointer (l r : Value) (p : List Value) :
    (finalState l r p).stackPointer = (finalState l r p).core.stackPointer :=
  rfl

/-- C12: the report is the top of the final stack, whatever lies beneath it.
For a well-formed stream whose final logical stack is `below ++ [v]`, the call
reports `v`, which is the top the reference machine ends with, for every
`below`; and `[PUSH,n1,...,PUSH,nk]` with `k >= 1` reports `nk`. -/
theorem top_is_reported (l r : Value) (p : List Value) (below : List Value) (v : Value)
    (hwf : wellFormed p = true)
    (hfinal : (finalState l r p).core.entries = below ++ [v]) :
    virtualMachine l r p = .reported v
    ∧ ideal p [] = some (v :: below.reverse)
    ∧ (∀ (ns : List Number) (n : Number),
        virtualMachine l r (pushes (ns ++ [n])) = .reported (.num n)) := by
  obtain ⟨ys, hys⟩ := ideal_of_disciplined p 0 [] rfl (disciplined_of_wellFormed p 0 hwf)
  have hholds := finalState_holds l r p ys hys
  have hent : ys.reverse = below ++ [v] := by rw [← hholds.2, hfinal]
  have hys2 : ys = v :: below.reverse := by
    have := congrArg List.reverse hent
    simpa using this
  refine ⟨?_, by rw [hys, hys2], fun ns n => ?_⟩
  · rw [virtualMachine_eq_top]
    rw [hent] at hholds
    rw [holds_top _ below v hholds]
  · rw [virtualMachine_eq_run, pushes_append, run_append _ _ _ (aligned_pushes ns)]
    simp only [pushes, run, if_true]
    rw [top_push]

theorem top_is_reported_witness :
    wellFormed [.str "PUSH", .num 1, .str "PUSH", .num 2] = true
    ∧ (finalState .undefined .undefined
          [.str "PUSH", .num 1, .str "PUSH", .num 2]).core.entries = [.num 1] ++ [.num 2]
    ∧ virtualMachine .undefined .undefined [.str "PUSH", .num 1, .str "PUSH", .num 2] =
        .reported (.num 2) :=
  ⟨by decide, by decide,
   (top_is_reported .undefined .undefined [.str "PUSH", .num 1, .str "PUSH", .num 2]
      [.num 1] (.num 2) (by decide) (by decide)).1⟩

theorem ideal_compile (e : Expr) (xs : List Value) :
    ideal (compile e) xs = some (.num e.value :: xs) := by
  induction e generalizing xs with
  | lit n => simp [compile, ideal, Expr.value]
  | add e1 e2 ih1 ih2 =>
    have ha1 := ideal_aligned _ _ _ (ih1 xs)
    have ha2 := ideal_aligned _ _ _ (ih2 (.num e1.value :: xs))
    simp only [compile, List.append_assoc]
    rw [ideal_append _ _ _ ha1, ih1, Option.some_bind, ideal_append _ _ _ ha2, ih2,
      Option.some_bind]
    simp [ideal, idealPlain, jsAdd, toNumber, Expr.value]
  | sub e1 e2 ih1 ih2 =>
    have ha1 := ideal_aligned _ _ _ (ih1 xs)
    have ha2 := ideal_aligned _ _ _ (ih2 (.num e1.value :: xs))
    simp only [compile, List.append_assoc]
    rw [ideal_append _ _ _ ha1, ih1, Option.some_bind, ideal_append _ _ _ ha2, ih2,
      Option.some_bind]
    simp [ideal, idealPlain, jsSub, toNumber, Expr.value]

/-- C15: for every expression tree `e` over numeric literals, `+` and `-`,
executing its post-order stream `compile e` reports the value of `e`, computed
in the arithmetic of Numbers (each operation rounded), and the final stack has
depth exactly 1 (its only entry is that value); for `(2^53 + 1) + 1` the
report is 2^53. -/
theorem compile_correct (l r : Value) (e : Expr) :
    virtualMachine l r (compile e) = .reported (.num e.value)
    ∧ (finalState l r (compile e)).stackPointer = 1
    ∧ (finalState l r (compile e)).core.entries = [.num e.value]
    ∧ virtualMachine l r
        (compile (.add (.add (.lit 9007199254740992) (.lit 1)) (.lit 1))) =
        .reported (.num 9007199254740992) := by
  have hholds := finalState_holds l r (compile e) _ (ideal_compile e [])
  simp only [List.reverse_cons, List.reverse_nil, List.nil_append] at hholds
  refine ⟨?_, ?_, hholds.2, ?_⟩
  · rw [virtualMachine_eq_top, holds_top _ [] _ (by simpa using hholds)]
  · rw [finalState_stackPointer, hholds.1]
    rfl
  · rw [virtualMachine_eq_run]
    decide

/-- C18: a token in opcode position that matches none of the `switch` cases is
a no-op: the iteration leaves the stack and the stack pointer as they are and
advances the program counter by exactly 1; inserting such a token at an opcode
position of a stream (after an aligned prefix `p`) leaves the report unchanged;
`['FOO',PUSH,3]` reports 3. -/
theorem unmatched_token_is_noop (l r : Value) (p q : List Value) (t : Value)
    (h1 : t ≠ .str "PUSH") (h2 : t ≠ .str "ADD") (h3 : t ≠ .str "MINUS")
    (hp : aligned p = true) :
    (∀ s : State, index s.program s.programCounter = t →
        (step s).stack = s.stack ∧ (step s).stackPointer = s.stackPointer
          ∧ (step s).programCounter = s.programCounter + 1)
    ∧ virtualMachine l r (p ++ t :: q) = virtualMachine l r (p ++ q)
    ∧ virtualMachine l r [.str "FOO", .str "PUSH", .num 3] = .reported (.num 3) := by
  refine ⟨fun s hs => ?_, ?_, ?_⟩
  · unfold step
    dsimp only
    rw [hs, if_neg h1, if_neg h2, if_neg h3]
    exact ⟨rfl, rfl, rfl⟩
  · rw [virtualMachine_eq_run, virtualMachine_eq_run, run_append _ _ _ hp,
      run_append _ _ _ hp, run_cons, if_neg h1]
    simp only [Core.plain, if_neg h2, if_neg h3]
  · rw [virtualMachine_eq_run]; decide

theorem unmatched_token_is_noop_witness :
    aligned [.str "PUSH", .num 1] = true
    ∧ virtualMachine .undefined .undefined
        ([.str "PUSH", .num 1] ++ .str "FOO" :: [.str "PUSH", .num 3]) =
      virtualMachine .undefined .undefined ([.str "PUSH", .num 1] ++ [.str "PUSH", .num 3]) :=
  ⟨by decide,
   (unmatched_token_is_noop .undefined .undefined [.str "PUSH", .num 1]
      [.str "PUSH", .num 3] (.str "FOO") (by decide) (by decide) (by decide) (by decide)).2.1⟩

theorem index_append_cons (a b : List Value) (t : Value) :
    index (a ++ t :: b) a.length = t := by
  unfold index
  rw [List.getD_eq_getElem?_getD, List.getElem?_append_right (le_refl _)]
  simp

theorem index_append_cons_cons (a b : List Value) (t x : Value) :
    index (a ++ t :: x :: b) (a.length + 1) = x := by
  have h := index_append_cons (a ++ [t]) b x
  simpa using h

/-- After every iteration the tokens consumed so far, run on the reference
machine, give the logical stack of the state. -/
theorem loop_refines (l r : Value) (p ys : List Value) (hp : ideal p [] = some ys) (k : Nat) :
    ∃ a b xs, p = a ++ b ∧ a.length = (loop k (initial l r p)).programCounter
      ∧ ideal a [] = some xs ∧ ideal b xs = some ys
      ∧ (loop k (initial l r p)).core.holds xs.reverse := by
  induction k with
  | zero => exact ⟨[], p, [], rfl, rfl, rfl, hp, holds_empty⟩
  | succ k ih =>
    obtain ⟨a, b, xs, hab, hlen, ha, hb, hholds⟩ := ih
    rw [loop_succ_right]
    have hprog : (loop k (initial l r p)).program = p := loop_program _ _
    have haligned := ideal_aligned a [] xs ha
    split_ifs with hlt
    · have hlt2 : a.length < (a ++ b).length := by
        rw [← hab, hlen]
        simpa [initial] using hlt
      match b, hab, hb, hlt2 with
      | [], _, _, hlt2 => simp at hlt2
      | tok :: b1, hab, hb, _ =>
        have htok : index p (loop k (initial l r p)).programCounter = tok := by
          rw [← hlen, hab, index_append_cons]
        by_cases ht : tok = .str "PUSH"
        · subst ht
          match b1, hab, hb with
          | [], _, hb => simp [ideal] at hb
          | x :: b2, hab, hb =>
            have hx : index p ((loop k (initial l r p)).programCounter + 1) = x := by
              rw [← hlen, hab, index_append_cons_cons]
            rw [ideal_push] at hb
            refine ⟨a ++ [.str "PUSH", x], b2, x :: xs, by simp [hab], ?_, ?_, hb, ?_⟩
            · rw [step_programCounter, hprog, htok, if_pos rfl, ← hlen]
              simp
            · rw [ideal_append _ _ _ haligned, ha, Option.some_bind, ideal_push]
              rfl
            · rw [step_core, hprog, htok, if_pos rfl, hx, List.reverse_cons]
              exact holds_push _ _ _ hholds
        · rw [ideal_plain _ _ _ ht, Option.bind_eq_some] at hb
          obtain ⟨zs, hzs, hys⟩ := hb
          refine ⟨a ++ [tok], b1, zs, by simp [hab], ?_, ?_, hys, ?_⟩
          · rw [step_programCounter, hprog, htok, if_neg ht, ← hlen]
            simp
          · rw [ideal_append _ _ _ haligned, ha, Option.some_bind]
            simp only [ideal, if_neg ht]
            exact hzs
          · rw [step_core, hprog, htok, if_neg ht]
            exact holds_plain tok _ xs zs hholds hzs
    · exact ⟨a, b, xs, hab, hlen, ha, hb, hholds⟩

/-- An iteration reads the stack only below `stackPointer`: overwriting a slot
at an index `i >= stackPointer` beforehand changes neither the new stack
pointer nor any entry below it. -/
theorem step_ignores_stale (s : State) (i : Int) (w : Value) (hi : s.stackPointer ≤ i) :
    (step { s with stack := store s.stack i w }).stackPointer = (step s).stackPointer
    ∧ ∀ j : Int, j < (step s).stackPointer →
        (step { s with stack := store s.stack i w }).stack j = (step s).stack j := by
  unfold step casePUSH caseADD caseMINUS
  dsimp only
  have h1 : ¬ (s.stackPointer - 1 = i) := by omega
  have h2 : ¬ (s.stackPointer - 1 - 1 = i) := by omega
  split_ifs
  · refine ⟨rfl, fun j hj => ?_⟩
    dsimp only at hj
    simp only [store]
    by_cases hjs : j = s.stackPointer
    · rw [if_pos hjs, if_pos hjs]
    · rw [if_neg hjs, if_neg hjs, if_neg (by omega)]
  · refine ⟨rfl, fun j hj => ?_⟩
    dsimp only at hj
    simp only [store, if_neg h1, if_neg h2]
    by_cases hjs : j = s.stackPointer - 1 - 1
    · rw [if_pos hjs, if_pos hjs]
    · rw [if_neg hjs, if_neg hjs, if_neg (by omega)]
  · refine ⟨rfl, fun j hj => ?_⟩
    dsimp only at hj
    simp only [store, if_neg h1, if_neg h2]
    by_cases hjs : j = s.stackPointer - 1 - 1
    · rw [if_pos hjs, if_pos hjs]
    · rw [if_neg hjs, if_neg hjs, if_neg (by omega)]
  · refine ⟨rfl, fun j hj => ?_⟩
    simp only [store]
    rw [if_neg (by omega)]

/-- C16: the array with its stack pointer refines an ideal LIFO list stack. For
every stream in which no binary operator runs with fewer than two values and
every `'PUSH'` has an operand, after each iteration the reference machine, run
on the tokens consumed so far, holds a list whose depth is `stackPointer` and
whose entries are `stack[0 .. stackPointer-1]`; the report is the reference
machine's final top of stack; and slots at or above `stackPointer` are not
read: overwriting one before an iteration changes nothing below the stack
pointer after it. -/
theorem refines_ideal_stack (l r : Value) (p : List Value)
    (h : disciplinedFrom 0 p = true) :
    (∀ k : Nat, ∃ xs,
        ideal (p.take (loop k (initial l r p)).programCounter) [] = some xs
        ∧ (loop k (initial l r p)).stackPointer = (xs.length : Int)
        ∧ (loop k (initial l r p)).core.entries = xs.reverse)
    ∧ (∃ ys, ideal p [] = some ys
        ∧ ∀ v, ys.head? = some v → virtualMachine l r p = .reported v)
    ∧ (∀ (s : State) (i : Int) (w : Value), s.stackPointer ≤ i →
        (step { s with stack := store s.stack i w }).stackPointer = (step s).stackPointer
        ∧ ∀ j : Int, j < (step s).stackPointer →
            (step { s with stack := store s.stack i w }).stack j = (step s).stack j) := by
  obtain ⟨ys, hys⟩ := ideal_of_disciplined p 0 [] rfl h
  refine ⟨fun k => ?_, ⟨ys, hys, fun v hv => ?_⟩, step_ignores_stale⟩
  · obtain ⟨a, b, xs, hab, hlen, ha, _, hholds⟩ := loop_refines l r p ys hys k
    refine ⟨xs, ?_, ?_, hholds.2⟩
    · rw [← hlen, hab, List.take_left' rfl]
      exact ha
    · have := hholds.1
      simpa [State.core] using this
  · match ys, hys, hv with
    | w :: ys1, hys, hv =>
      simp only [List.head?_cons, Option.some.injEq] at hv
      subst hv
      have hholds := finalState_holds l r p _ hys
      rw [List.reverse_cons] at hholds
      rw [virtualMachine_eq_top, holds_top _ _ _ hholds]

theorem refines_ideal_stack_witness :
    disciplinedFrom 0 program = true
    ∧ virtualMachine .undefined .undefined program = .reported (.num 2) :=
  ⟨by decide,
   Exists.elim (refines_ideal_stack .undefined .undefined program (by decide)).2.1
     (fun ys hys =>
       hys.2 (.num 2) (by
         have hsome : some ys = some [Value.num 2] := hys.1.symm.trans (by decide)
         rw [Option.some.inj hsome]
         rfl))⟩

/-- C17, as stated, fails for the empty suffix: `[]` is well-formed, never
underflows and alone reports `undefined`, but `[PUSH,3] ++ []` reports 3. -/
theorem prefix_independence_counterexample :
    wellFormed [.str "PUSH", .num 3] = true
    ∧ wellFormed [] = true
    ∧ neverUnderflows .undefined .undefined []
    ∧ virtualMachine .undefined .undefined [] = .reported .undefined
    ∧ ¬ (virtualMachine .undefined .undefined ([.str "PUSH", .num 3] ++ []) =
          .reported .undefined) := by
  decide

/-- C17, amended: for all well-formed streams `p` and `q` with `q` not empty
(a well-formed stream never underflows when run alone from the empty stack),
if `q` alone reports `v` then `p ++ q` reports `v`, and the final logical
stack of `p ++ q` is the one left by `p` with the one left by `q` on top. -/
theorem prefix_independence (l r : Value) (p q : List Value) (v : Value)
    (hp : wellFormed p = true) (hq : wellFormed q = true) (hne : q ≠ [])
    (hv : virtualMachine l r q = .reported v) :
    virtualMachine l r (p ++ q) = .reported v
    ∧ (finalState l r (p ++ q)).core.entries =
        (finalState l r p).core.entries ++ (finalState l r q).core.entries := by
  obtain ⟨ps, hps⟩ := ideal_of_disciplined p 0 [] rfl (disciplined_of_wellFormed p 0 hp)
  obtain ⟨qs, hqs⟩ := ideal_of_disciplined q 0 [] rfl (disciplined_of_wellFormed q 0 hq)
  have hqne := ideal_ne_nil_of_wellFormed q 0 [] qs hq hne hqs
  have hpq : ideal (p ++ q) [] = some (qs ++ ps) := by
    rw [ideal_append _ _ _ (ideal_aligned p [] ps hps), hps, Option.some_bind]
    have := ideal_frame q [] qs ps hqs
    simpa using this
  have h1 := finalState_holds l r p ps hps
  have h2 := finalState_holds l r q qs hqs
  have h3 := finalState_holds l r (p ++ q) _ hpq
  refine ⟨?_, ?_⟩
  · match qs, hqne, h2, h3 with
    | w :: qs1, _, h2, h3 =>
      rw [List.reverse_cons] at h2
      rw [List.cons_append, List.reverse_cons] at h3
      rw [virtualMachine_eq_top, holds_top _ _ _ h2] at hv
      rw [virtualMachine_eq_top, holds_top _ _ _ h3]
      exact hv
  · rw [h3.2, h1.2, h2.2, List.reverse_append]

theorem prefix_independence_witness :
    wellFormed [.str "PUSH", .num 9] = true
    ∧ wellFormed [.str "PUSH", .num 3, .str "PUSH", .num 4, .str "ADD"] = true
    ∧ virtualMachine .undefined .undefined
        [.str "PUSH", .num 3, .str "PUSH", .num 4, .str "ADD"] = .reported (.num 7)
    ∧ virtualMachine .undefined .undefined
        ([.str "PUSH", .num 9] ++ [.str "PUSH", .num 3, .str "PUSH", .num 4, .str "ADD"]) =
        .reported (.num 7) :=
  ⟨by decide, by decide, by decide,
   (prefix_independence .undefined .undefined [.str "PUSH", .num 9]
      [.str "PUSH", .num 3, .str "PUSH", .num 4, .str "ADD"] (.num 7)
      (by decide) (by decide) (by decide) (by decide)).1⟩

end Chui
